import Mathlib

/-!
Shallow embedding of the dense linear-algebra library (matrix.hpp / vector.hpp).

The element type of the C++ template `Matrix<T>` is instantiated in the demo
driver at `double`; we model element values as rational numbers `ℚ`, on which
every arithmetic step the library performs (addition, subtraction,
multiplication of stored values) is exact, and we model the C++ conversion
`int <- double` (truncation toward zero) explicitly where the source performs
it (the accumulator of `MatMul::operator()` is declared `auto sum = 0`, an
`int`).

Sizes (`std::size_t`) are modeled as `Nat`; `MAX_SZ` is `(std::size_t)-1`,
i.e. `2 ^ 64 - 1` on the 64-bit platform the build targets.  A failed
`assert` aborts the program; an operation guarded by an `assert` is modeled
as an `Option`-returning function that yields `none` exactly when the
asserted condition is false.
-/

namespace Linalg

/-- MAX_SZ from matrix.hpp: `(std::size_t)-1` on a 64-bit platform. -/
def MAX_SZ : Nat := 2 ^ 64 - 1

/-- The state of a `Matrix<T>` object: the fields `rows_`, `cols_`, `size_`
and the element buffer `data_` (a `std::vector<T>`, row-major). -/
structure Matrix where
  rows_ : Nat
  cols_ : Nat
  size_ : Nat
  data_ : List ℚ
deriving DecidableEq

/-- Element read access `mat(i,j)`: `data_[i * cols_ + j]`.  The source
accessor `assert`s `i < rows_ && j < cols_`; claims about reads carry those
bounds as hypotheses. -/
def Matrix.el (m : Matrix) (i j : Nat) : ℚ :=
  m.data_.getD (i * m.cols_ + j) 0

/-- Element write access `mat(i,j) = v`: store at `data_[i * cols_ + j]`.
Same bound conditions as the read accessor. -/
def Matrix.setEl (m : Matrix) (i j : Nat) (v : ℚ) : Matrix :=
  { m with data_ := m.data_.set (i * m.cols_ + j) v }

/-- One row of the element-fill double loop: writes `g j` at buffer position
`base + j` for `j = 0, 1, ..., n-1` (with `base = i * cols_`, this is the
inner loop `for (j = 0; j < cols; j++) dest(i,j) = ...`). -/
def rowWrite (base : Nat) (g : Nat → ℚ) (n : Nat) (d : List ℚ) : List ℚ :=
  (List.range n).foldl (fun acc j => acc.set (base + j) (g j)) d

/-- The row-major element-fill double loop shared by the materializing
constructor, the copy constructor, copy assignment and `t()`: for every
`i < r`, `j < c` write `f i j` at buffer position `i * c + j`. -/
def writeLoop (r c : Nat) (f : Nat → Nat → ℚ) (d : List ℚ) : List ℚ :=
  (List.range r).foldl (fun acc i => rowWrite (i * c) (f i) c acc) d

/-- The sequential initializer-list fill loop
`int i = 0; for (elem : vals) data_[i++] = elem;`. -/
def writeFrom (i : Nat) (vals d : List ℚ) : List ℚ :=
  match vals with
  | [] => d
  | v :: rest => writeFrom (i + 1) rest (d.set i v)

/-- `std::vector::resize(n)`: keep the first `n` elements, pad with
value-initialized (zero) elements if the vector grows. -/
def listResize (d : List ℚ) (n : Nat) : List ℚ :=
  d.take n ++ List.replicate (n - d.length) 0

/-- Constructor `Matrix(r, c, val)`: `assert (r > 0 && c > 0 && r < MAX_SZ
&& c < MAX_SZ)`, then `rows_ = r; cols_ = c; size_ = r * c;
data_.resize(r * c, val)`. -/
def Matrix.mkFill (r c : Nat) (val : ℚ) : Option Matrix :=
  if 0 < r ∧ 0 < c ∧ r < MAX_SZ ∧ c < MAX_SZ then
    some { rows_ := r, cols_ := c, size_ := r * c, data_ := List.replicate (r * c) val }
  else none

/-- Constructor `Matrix(r, c)`: delegates to `Matrix(r, c, T(0))`. -/
def Matrix.mkZero (r c : Nat) : Option Matrix :=
  Matrix.mkFill r c 0

/-- Constructor `Matrix(vals)` from an initializer list: no `assert`;
`data_.resize(vals.size())` on the fresh (empty) vector yields
`vals.size()` zeros, then the loop `data_[i++] = elem` copies the values;
finally `size_ = vals.size(); rows_ = 1; cols_ = vals.size()`. -/
def Matrix.ofList (vals : List ℚ) : Matrix :=
  { rows_ := 1, cols_ := vals.length, size_ := vals.length,
    data_ := writeFrom 0 vals (List.replicate vals.length 0) }

/-- Constructor `Matrix(r, c, valarray)` from an external buffer: same
`assert` as `Matrix(r, c, val)`, then `data_.resize(r * c)` and a loop
copying `r * c` elements from the buffer.  (The loop body in the source
reads `data_ = valarray[i]`, which is ill-formed C++ — a scalar assigned to
a `std::vector` — and the constructor is never instantiated; we model the
evident per-element write `data_[i] = valarray[i]`.) -/
def Matrix.ofBuffer (r c : Nat) (valarray : Nat → ℚ) : Option Matrix :=
  if 0 < r ∧ 0 < c ∧ r < MAX_SZ ∧ c < MAX_SZ then
    some { rows_ := r, cols_ := c, size_ := r * c,
           data_ := (List.range (r * c)).foldl (fun acc i => acc.set i (valarray i))
             (List.replicate (r * c) 0) }
  else none

/-- Copy constructor `Matrix(other)`: copy `rows_`, `cols_`, `size_`,
`data_.resize(size_)` on the fresh vector (yielding `size_` zeros), then the
row-major double loop `(*this)(i,j) = other(i,j)`. -/
def Matrix.ofCopy (other : Matrix) : Matrix :=
  { rows_ := other.rows_, cols_ := other.cols_, size_ := other.size_,
    data_ := writeLoop other.rows_ other.cols_ (fun i j => other.el i j)
      (List.replicate other.size_ 0) }

/-- Copy assignment `operator=(other)`: overwrite `rows_`, `cols_`, `size_`,
`data_.resize(size_)` on the existing buffer, then the row-major double loop
`(*this)(i,j) = other(i,j)`.  (The `&other == this` self-assignment
short-circuit returns the object unchanged and is the identity in a
value-semantics model.) -/
def Matrix.assignCopy (self other : Matrix) : Matrix :=
  { rows_ := other.rows_, cols_ := other.cols_, size_ := other.size_,
    data_ := writeLoop other.rows_ other.cols_ (fun i j => other.el i j)
      (listResize self.data_ other.size_) }

/-- Initializer-list assignment `operator=(vals)`:
`assert(size_ == vals.size())`, then the loop `data_[i++] = elem` rewrites
the buffer content in place; shape fields are untouched. -/
def Matrix.assignList (m : Matrix) (vals : List ℚ) : Option Matrix :=
  if m.size_ = vals.length then
    some { m with data_ := writeFrom 0 vals m.data_ }
  else none

/-- `Matrix::resize(r, c)`: `assert(r * c == size_)`, then set `rows_ = r;
cols_ = c` — the buffer is untouched. -/
def Matrix.resize (m : Matrix) (r c : Nat) : Option Matrix :=
  if r * c = m.size_ then
    some { m with rows_ := r, cols_ := c }
  else none

/-- `Matrix::t()`: build `result(cols_, rows_, T(0))` (through the asserting
fill constructor), then the double loop `result(i,j) = (*this)(j,i)` over
`result`'s extents.  Pure: the receiver is not modified. -/
def Matrix.t (m : Matrix) : Option Matrix :=
  (Matrix.mkFill m.cols_ m.rows_ 0).map fun res =>
    { res with data_ := writeLoop res.rows_ res.cols_ (fun i j => m.el j i) res.data_ }

/-- The capability every expression node exposes (class `MatOp`):
`rows()`, `cols()`, `size()` and per-element evaluation `(i,j)`. -/
structure MatOp where
  rows : Nat
  cols : Nat
  size : Nat
  el : Nat → Nat → ℚ

/-- A `Matrix` used as an operand of an expression node (class `Matrix` is a
`MatOp` through CRTP inheritance). -/
def Matrix.toOp (m : Matrix) : MatOp :=
  { rows := m.rows_, cols := m.cols_, size := m.size_, el := fun i j => m.el i j }

/-- `MatSum` node, built by `operator+(MatOp, MatOp)`: `assert`s that the
operand sizes, rows and cols match; `rows()`, `cols()`, `size()` are taken
from the left operand; element `(i,j)` is `u(i,j) + v(i,j)`. -/
def matSum (u v : MatOp) : Option MatOp :=
  if u.size = v.size ∧ u.rows = v.rows ∧ u.cols = v.cols then
    some { rows := u.rows, cols := u.cols, size := u.size,
           el := fun i j => u.el i j + v.el i j }
  else none

/-- `MatSub` node, built by `operator-(MatOp, MatOp)`: same shape `assert`s
as `MatSum`; element `(i,j)` is `u(i,j) - v(i,j)`. -/
def matSub (u v : MatOp) : Option MatOp :=
  if u.size = v.size ∧ u.rows = v.rows ∧ u.cols = v.cols then
    some { rows := u.rows, cols := u.cols, size := u.size,
           el := fun i j => u.el i j - v.el i j }
  else none

/-- `MatElMul` node, built by `operator&(MatOp, MatOp)` (element-wise
multiplication; `&` is used because `*` is reserved for true matrix
multiplication): same shape `assert`s as `MatSum`; element `(i,j)` is
`u(i,j) * v(i,j)`. -/
def matElMul (u v : MatOp) : Option MatOp :=
  if u.size = v.size ∧ u.rows = v.rows ∧ u.cols = v.cols then
    some { rows := u.rows, cols := u.cols, size := u.size,
           el := fun i j => u.el i j * v.el i j }
  else none

/-- `MatScale` node: no `assert`; element `(i,j)` is `u(i,j) * s`. -/
def matScale (u : MatOp) (s : ℚ) : MatOp :=
  { rows := u.rows, cols := u.cols, size := u.size,
    el := fun i j => u.el i j * s }

/-- The overload `operator*(MatOp, T)`: builds `MatScale(u, s)`. -/
def opScaleRight (u : MatOp) (s : ℚ) : MatOp := matScale u s

/-- The overload `operator*(T, MatOp)`: also builds `MatScale(u, s)`. -/
def opScaleLeft (s : ℚ) (u : MatOp) : MatOp := matScale u s

/-- `MatShift` node: no `assert`; element `(i,j)` is `u(i,j) + s`. -/
def matShift (u : MatOp) (s : ℚ) : MatOp :=
  { rows := u.rows, cols := u.cols, size := u.size,
    el := fun i j => u.el i j + s }

/-- The overload `operator+(MatOp, T)`: builds `MatShift(u, s)`. -/
def opShiftRight (u : MatOp) (s : ℚ) : MatOp := matShift u s

/-- The overload `operator+(T, MatOp)`: also builds `MatShift(u, s)`. -/
def opShiftLeft (s : ℚ) (u : MatOp) : MatOp := matShift u s

/-- C++ conversion of an exact numeric value to `int`: truncation toward
zero.  `Int.div` rounds toward zero, and a rational is exactly `num / den`
with `den > 0`. -/
def ratTrunc (q : ℚ) : Int :=
  Int.tdiv q.num q.den

/-- The inner-product loop of `MatMul::operator()`; the accumulator in the
source is `auto sum = 0`, an `int`, so each compound assignment
`sum += _u(i,c) * _vt(j,c)` converts the exact sum back to `int`
(truncation toward zero). -/
def matMulEl (u : MatOp) (vt : Matrix) (i j : Nat) : Int :=
  (List.range u.cols).foldl
    (fun sum c => ratTrunc ((sum : ℚ) + u.el i c * vt.el j c)) 0

/-- `MatMul` node, built by `operator*(MatOp, MatOp)`: the member
initializer `_vt(v.t())` precomputes the right operand's transpose once at
node construction (so the right operand must be a concrete container with a
`t()` member — in every driver expression it is), then the constructor body
`assert`s `u.cols() == v.rows()`.  `rows()` is the left operand's rows,
`cols()` the right operand's cols, `size()` their product; element `(i,j)`
is the inner product taken over the left operand's cols against row `j` of
the precomputed transpose. -/
def matMul (u : MatOp) (v : Matrix) : Option MatOp :=
  match v.t with
  | none => none
  | some vt =>
    if u.cols = v.rows_ then
      some { rows := u.rows, cols := v.cols_, size := u.rows * v.cols_,
             el := fun i j => ((matMulEl u vt i j : Int) : ℚ) }
    else none

/-- The Materializer, `Matrix(MatOp const& op)`: delegate to
`Matrix(op.rows(), op.cols())` (zero-filled, with its positivity/extent
`assert`), then the row-major double loop `(*this)(i,j) = op(i,j)`. -/
def materialize (op : MatOp) : Option Matrix :=
  (Matrix.mkZero op.rows op.cols).map fun m =>
    { m with data_ := writeLoop m.rows_ m.cols_ (fun i j => op.el i j) m.data_ }

/-- The state of a `Vector<T>` object: `Vector` inherits all of `Matrix`'s
state. -/
structure Vector where
  mat : Matrix

/-- `Vector::resize(r, c)` overrides the matrix version with an immediate
`return`: no `assert`, no state change, for every requested shape. -/
def Vector.resize (v : Vector) (_r _c : Nat) : Vector := v

/-- `Vector::rows()` override: always `1`. -/
def Vector.rows (_v : Vector) : Nat := 1

/-- `Vector::cols()` override: the inherited `size_` field. -/
def Vector.cols (v : Vector) : Nat := v.mat.size_

/-- The container invariant: `size_` is `rows_ * cols_` and the buffer
holds exactly `size_` elements (so `elements.length == rows * cols`). -/
def Wf (m : Matrix) : Prop :=
  m.size_ = m.rows_ * m.cols_ ∧ m.data_.length = m.size_

/-- Unfolding the fill loop for one more row. -/
theorem rowWrite_succ (base : Nat) (g : Nat → ℚ) (n : Nat) (d : List ℚ) :
    rowWrite base g (n + 1) d = (rowWrite base g n d).set (base + n) (g n) := by
  unfold rowWrite
  rw [List.range_succ, List.foldl_append]
  rfl

/-- The row fill loop does not change the buffer length. -/
theorem rowWrite_length (base : Nat) (g : Nat → ℚ) (n : Nat) (d : List ℚ) :
    (rowWrite base g n d).length = d.length := by
  induction n with
  | zero => rfl
  | succ n ih => rw [rowWrite_succ, List.length_set, ih]

/-- The row fill loop leaves positions before `base` untouched. -/
theorem rowWrite_getElem_lt (base : Nat) (g : Nat → ℚ) (n : Nat) (d : List ℚ)
    {k : Nat} (hk : k < base) :
    (rowWrite base g n d)[k]? = d[k]? := by
  induction n with
  | zero => rfl
  | succ n ih => rw [rowWrite_succ, List.getElem?_set_ne (by omega), ih]

/-- The row fill loop stores `g j` at position `base + j`. -/
theorem rowWrite_getElem_hit (base : Nat) (g : Nat → ℚ) (n : Nat) (d : List ℚ)
    {j : Nat} (hj : j < n) (hlen : base + j < d.length) :
    (rowWrite base g n d)[base + j]? = some (g j) := by
  induction n with
  | zero => omega
  | succ n ih =>
    rw [rowWrite_succ]
    by_cases h : j = n
    · subst h
      exact List.getElem?_set_self (by rw [rowWrite_length]; exact hlen)
    · rw [List.getElem?_set_ne (by omega)]
      exact ih (by omega)

/-- Unfolding the double fill loop for one more row. -/
theorem writeLoop_succ (r c : Nat) (f : Nat → Nat → ℚ) (d : List ℚ) :
    writeLoop (r + 1) c f d = rowWrite (r * c) (f r) c (writeLoop r c f d) := by
  unfold writeLoop
  rw [List.range_succ, List.foldl_append]
  rfl

/-- The double fill loop does not change the buffer length. -/
theorem writeLoop_length (r c : Nat) (f : Nat → Nat → ℚ) (d : List ℚ) :
    (writeLoop r c f d).length = d.length := by
  induction r with
  | zero => rfl
  | succ r ih => rw [writeLoop_succ, rowWrite_length, ih]

/-- Row-major index bound: `i < r` and `j < c` give `i * c + j < r * c`. -/
theorem idx_lt {i r j c : Nat} (hi : i < r) (hj : j < c) : i * c + j < r * c :=
  calc i * c + j < i * c + c := by omega
  _ = (i + 1) * c := by ring
  _ ≤ r * c := Nat.mul_le_mul_right c hi

/-- The double fill loop stores `f i j` at row-major position `i * c + j`. -/
theorem writeLoop_getElem_hit (r c : Nat) (f : Nat → Nat → ℚ) (d : List ℚ)
    {i j : Nat} (hi : i < r) (hj : j < c) (hlen : i * c + j < d.length) :
    (writeLoop r c f d)[i * c + j]? = some (f i j) := by
  induction r with
  | zero => omega
  | succ r ih =>
    rw [writeLoop_succ]
    by_cases h : i = r
    · subst h
      exact rowWrite_getElem_hit (i * c) (f i) c _ hj
        (by rw [writeLoop_length]; exact hlen)
    · rw [rowWrite_getElem_lt _ _ _ _ (idx_lt (by omega) hj)]
      exact ih (by omega)

/-- The sequential fill loop does not change the buffer length. -/
theorem writeFrom_length (vals : List ℚ) : ∀ (i : Nat) (d : List ℚ),
    (writeFrom i vals d).length = d.length := by
  induction vals with
  | nil => intro i d; rfl
  | cons v rest ih =>
    intro i d
    simp only [writeFrom]
    rw [ih, List.length_set]

/-- The sequential fill loop starting at position `pre.length` on a buffer
that holds `pre` followed by as many zeros as there are values writes
exactly the values after `pre`. -/
theorem writeFrom_replicate (vals : List ℚ) :
    ∀ pre : List ℚ,
      writeFrom pre.length vals (pre ++ List.replicate vals.length 0) = pre ++ vals := by
  induction vals with
  | nil => intro pre; simp [writeFrom]
  | cons v rest ih =>
    intro pre
    simp only [writeFrom, List.length_cons, List.replicate_succ]
    rw [List.set_append_right _ _ (le_refl pre.length), Nat.sub_self]
    have hset : ((0 : ℚ) :: List.replicate rest.length 0).set 0 v
        = v :: List.replicate rest.length 0 := rfl
    rw [hset]
    have h2 : pre ++ v :: List.replicate rest.length 0
        = (pre ++ [v]) ++ List.replicate rest.length 0 := by simp
    have h3 : pre.length + 1 = (pre ++ [v]).length := by simp
    rw [h2, h3, ih (pre ++ [v])]
    simp

/-- The initializer-list constructor stores exactly the given values. -/
theorem Matrix.ofList_data (vals : List ℚ) : (Matrix.ofList vals).data_ = vals := by
  have h := writeFrom_replicate vals ([] : List ℚ)
  simpa [Matrix.ofList] using h

/-- `std::vector::resize(n)` yields a buffer of length `n`. -/
theorem listResize_length (d : List ℚ) (n : Nat) : (listResize d n).length = n := by
  simp only [listResize, List.length_append, List.length_take, List.length_replicate]
  omega

/-- Two matrix states with equal fields are equal. -/
theorem Matrix.eq_of_fields {m1 m2 : Matrix} (h1 : m1.rows_ = m2.rows_)
    (h2 : m1.cols_ = m2.cols_) (h3 : m1.size_ = m2.size_)
    (h4 : m1.data_ = m2.data_) : m1 = m2 := by
  cases m1; cases m2; simp_all

/-- Two buffers of matching shape with equal elements at every in-bounds
`(i,j)` are equal as lists. -/
theorem Matrix.data_eq_of_el {m1 m2 : Matrix} (hr : m1.rows_ = m2.rows_)
    (hc : m1.cols_ = m2.cols_)
    (hl1 : m1.data_.length = m1.rows_ * m1.cols_)
    (hl2 : m2.data_.length = m2.rows_ * m2.cols_)
    (h : ∀ i j, i < m1.rows_ → j < m1.cols_ → m1.el i j = m2.el i j) :
    m1.data_ = m2.data_ := by
  apply List.ext_getElem (by rw [hl1, hl2, hr, hc])
  intro k hk1 hk2
  have hc0 : 0 < m1.cols_ := by
    rcases Nat.eq_zero_or_pos m1.cols_ with h0 | h0
    · rw [hl1, h0, Nat.mul_zero] at hk1; omega
    · exact h0
  have hi : k / m1.cols_ < m1.rows_ := by
    apply Nat.div_lt_of_lt_mul
    rw [Nat.mul_comm, ← hl1]
    exact hk1
  have hj : k % m1.cols_ < m1.cols_ := Nat.mod_lt _ hc0
  have hidx : k / m1.cols_ * m1.cols_ + k % m1.cols_ = k := by
    rw [Nat.mul_comm]; exact Nat.div_add_mod k m1.cols_
  have helq := h (k / m1.cols_) (k % m1.cols_) hi hj
  unfold Matrix.el at helq
  rw [← hc, hidx] at helq
  rw [List.getD_eq_getElem?_getD, List.getD_eq_getElem?_getD,
    List.getElem?_eq_getElem hk1, List.getElem?_eq_getElem hk2] at helq
  simpa using helq

/-- Behaviour of the materializing constructor on any node with valid
extents: it allocates a `rows() × cols()` container and writes every node
element at its row-major position. -/
theorem materialize_spec (op : MatOp) (h1 : 0 < op.rows) (h2 : 0 < op.cols)
    (h3 : op.rows < MAX_SZ) (h4 : op.cols < MAX_SZ) :
    ∃ m, materialize op = some m ∧ m.rows_ = op.rows ∧ m.cols_ = op.cols ∧
      m.size_ = op.rows * op.cols ∧ m.data_.length = op.rows * op.cols ∧
      ∀ i j, i < op.rows → j < op.cols → m.el i j = op.el i j := by
  unfold materialize Matrix.mkZero Matrix.mkFill
  rw [if_pos ⟨h1, h2, h3, h4⟩]
  refine ⟨_, rfl, rfl, rfl, rfl, ?_, ?_⟩
  · rw [writeLoop_length, List.length_replicate]
  · intro i j hi hj
    unfold Matrix.el
    rw [List.getD_eq_getElem?_getD,
      writeLoop_getElem_hit _ _ _ _ hi hj
        (by rw [List.length_replicate]; exact idx_lt hi hj)]
    rfl

/-- A node whose shape and elements agree with a well-formed container `A`
materializes to exactly `A`. -/
theorem materialize_eq_of_el (op : MatOp) (A : Matrix) (hwf : Wf A)
    (hr : op.rows = A.rows_) (hc : op.cols = A.cols_)
    (h1 : 0 < A.rows_) (h2 : 0 < A.cols_)
    (h3 : A.rows_ < MAX_SZ) (h4 : A.cols_ < MAX_SZ)
    (hel : ∀ i j, i < A.rows_ → j < A.cols_ → op.el i j = A.el i j) :
    materialize op = some A := by
  obtain ⟨m, hm, hmr, hmc, hms, hml, hmel⟩ :=
    materialize_spec op (by rw [hr]; exact h1) (by rw [hc]; exact h2)
      (by rw [hr]; exact h3) (by rw [hc]; exact h4)
  rw [hm]
  congr 1
  apply Matrix.eq_of_fields
  · rw [hmr, hr]
  · rw [hmc, hc]
  · rw [hms, hr, hc]; exact hwf.1.symm
  · apply Matrix.data_eq_of_el (hmr.trans hr) (hmc.trans hc)
    · rw [hml, hmr, hmc, hr, hc]
    · exact hwf.2.trans hwf.1
    · intro i j hi hj
      have hi2 : i < op.rows := by rw [← hmr]; exact hi
      have hj2 : j < op.cols := by rw [← hmc]; exact hj
      rw [hmel i j hi2 hj2]
      exact hel i j (by rw [← hr]; exact hi2) (by rw [← hc]; exact hj2)

/-- Construction behaviour of a `MatSum` node whose operands satisfy its
shape contract. -/
theorem matSum_spec (u v : MatOp)
    (h : u.size = v.size ∧ u.rows = v.rows ∧ u.cols = v.cols) :
    ∃ n, matSum u v = some n ∧ n.rows = u.rows ∧ n.cols = u.cols ∧
      n.size = u.size ∧ ∀ i j, n.el i j = u.el i j + v.el i j := by
  unfold matSum
  rw [if_pos h]
  exact ⟨_, rfl, rfl, rfl, rfl, fun i j => rfl⟩

/-- Construction behaviour of a `MatSub` node whose operands satisfy its
shape contract. -/
theorem matSub_spec (u v : MatOp)
    (h : u.size = v.size ∧ u.rows = v.rows ∧ u.cols = v.cols) :
    ∃ n, matSub u v = some n ∧ n.rows = u.rows ∧ n.cols = u.cols ∧
      n.size = u.size ∧ ∀ i j, n.el i j = u.el i j - v.el i j := by
  unfold matSub
  rw [if_pos h]
  exact ⟨_, rfl, rfl, rfl, rfl, fun i j => rfl⟩

/-- Construction behaviour of a `MatElMul` node whose operands satisfy its
shape contract. -/
theorem matElMul_spec (u v : MatOp)
    (h : u.size = v.size ∧ u.rows = v.rows ∧ u.cols = v.cols) :
    ∃ n, matElMul u v = some n ∧ n.rows = u.rows ∧ n.cols = u.cols ∧
      n.size = u.size ∧ ∀ i j, n.el i j = u.el i j * v.el i j := by
  unfold matElMul
  rw [if_pos h]
  exact ⟨_, rfl, rfl, rfl, rfl, fun i j => rfl⟩

/-- Behaviour of `Matrix::t()` on a container with valid extents: a new
container with swapped extents holding `source(j,i)` at `(i,j)`. -/
theorem t_spec (m : Matrix) (h1 : 0 < m.rows_) (h2 : 0 < m.cols_)
    (h3 : m.rows_ < MAX_SZ) (h4 : m.cols_ < MAX_SZ) :
    ∃ mt, Matrix.t m = some mt ∧ mt.rows_ = m.cols_ ∧ mt.cols_ = m.rows_ ∧
      mt.size_ = m.cols_ * m.rows_ ∧ mt.data_.length = m.cols_ * m.rows_ ∧
      ∀ i j, i < m.cols_ → j < m.rows_ → mt.el i j = m.el j i := by
  unfold Matrix.t Matrix.mkFill
  rw [if_pos ⟨h2, h1, h4, h3⟩]
  refine ⟨_, rfl, rfl, rfl, rfl, ?_, ?_⟩
  · rw [writeLoop_length, List.length_replicate]
  · intro i j hi hj
    unfold Matrix.el
    dsimp
    rw [List.getD_eq_getElem?_getD,
      writeLoop_getElem_hit _ _ _ _ hi hj
        (by rw [List.length_replicate]; exact idx_lt hi hj)]
    rfl

/-- A fold of single-position writes does not change the buffer length. -/
theorem setFold_length (l : List Nat) (g : Nat → ℚ) (d : List ℚ) :
    (l.foldl (fun acc i => acc.set i (g i)) d).length = d.length := by
  induction l generalizing d with
  | nil => rfl
  | cons x xs ih => rw [List.foldl_cons, ih, List.length_set]

/-- The fill constructor establishes the invariant. -/
theorem wf_mkFill (r c : Nat) (val : ℚ) (m : Matrix)
    (h : Matrix.mkFill r c val = some m) : Wf m := by
  unfold Matrix.mkFill at h
  split at h
  · cases h
    exact ⟨rfl, by simp⟩
  · exact Option.noConfusion h

/-- The zero-fill constructor establishes the invariant. -/
theorem wf_mkZero (r c : Nat) (m : Matrix)
    (h : Matrix.mkZero r c = some m) : Wf m := by
  unfold Matrix.mkZero at h
  exact wf_mkFill r c 0 m h

/-- The external-buffer constructor establishes the invariant. -/
theorem wf_ofBuffer (r c : Nat) (f : Nat → ℚ) (m : Matrix)
    (h : Matrix.ofBuffer r c f = some m) : Wf m := by
  unfold Matrix.ofBuffer at h
  split at h
  · cases h
    exact ⟨rfl, by rw [setFold_length, List.length_replicate]⟩
  · exact Option.noConfusion h

/-- The initializer-list constructor establishes the invariant. -/
theorem wf_ofList (vals : List ℚ) : Wf (Matrix.ofList vals) :=
  ⟨(Nat.one_mul vals.length).symm,
    by rw [Matrix.ofList, writeFrom_length, List.length_replicate]⟩

/-- The copy constructor preserves the invariant. -/
theorem wf_ofCopy (other : Matrix) (h : Wf other) : Wf (Matrix.ofCopy other) :=
  ⟨h.1, by rw [Matrix.ofCopy, writeLoop_length, List.length_replicate]⟩

/-- The materializing constructor establishes the invariant. -/
theorem wf_materialize (op : MatOp) (m : Matrix)
    (h : materialize op = some m) : Wf m := by
  unfold materialize at h
  cases hz : Matrix.mkZero op.rows op.cols with
  | none => rw [hz] at h; exact Option.noConfusion h
  | some m0 =>
    rw [hz] at h
    have hw0 := wf_mkZero op.rows op.cols m0 hz
    simp only [Option.map_some'] at h
    cases h
    exact ⟨hw0.1, by rw [writeLoop_length]; exact hw0.2⟩

/-- Copy assignment re-establishes the invariant from the source's. -/
theorem wf_assignCopy (self other : Matrix) (h : Wf other) :
    Wf (Matrix.assignCopy self other) :=
  ⟨h.1, by rw [Matrix.assignCopy, writeLoop_length, listResize_length]⟩

/-- Initializer-list assignment preserves the invariant. -/
theorem wf_assignList (m : Matrix) (vals : List ℚ) (m2 : Matrix) (hw : Wf m)
    (h : Matrix.assignList m vals = some m2) : Wf m2 := by
  unfold Matrix.assignList at h
  split at h
  · cases h
    exact ⟨hw.1, by rw [writeFrom_length]; exact hw.2⟩
  · exact Option.noConfusion h

/-- `resize` preserves the invariant. -/
theorem wf_resize (m : Matrix) (r c : Nat) (m2 : Matrix) (hw : Wf m)
    (h : Matrix.resize m r c = some m2) : Wf m2 := by
  unfold Matrix.resize at h
  by_cases hg : r * c = m.size_
  · rw [if_pos hg] at h
    cases h
    exact ⟨hg.symm, hw.2⟩
  · rw [if_neg hg] at h
    exact Option.noConfusion h

/-- `t()` establishes the invariant on the returned container. -/
theorem wf_t (m m2 : Matrix) (h : Matrix.t m = some m2) : Wf m2 := by
  unfold Matrix.t at h
  cases hz : Matrix.mkFill m.cols_ m.rows_ 0 with
  | none => rw [hz] at h; exact Option.noConfusion h
  | some m0 =>
    rw [hz] at h
    have hw0 := wf_mkFill m.cols_ m.rows_ 0 m0 hz
    simp only [Option.map_some'] at h
    cases h
    exact ⟨hw0.1, by rw [writeLoop_length]; exact hw0.2⟩

/-- Element mutation preserves the invariant. -/
theorem wf_setEl (m : Matrix) (i j : Nat) (val : ℚ) (hw : Wf m) :
    Wf (Matrix.setEl m i j val) :=
  ⟨hw.1, by rw [Matrix.setEl, List.length_set]; exact hw.2⟩

/-- C2: for every container with `r*c` equal to its current element count,
`reshape(r,c)` succeeds, leaves the buffer unchanged, and a subsequent read
of `(i,j)` for `i < r`, `j < c` yields the original buffer's element at
row-major position `i*c + j`; `reshape(r,c)` with `r*c` different from the
element count is a contract violation (the `assert` fails, so no changed
container is produced). -/
theorem C2_reshape (m : Matrix) (r c : Nat) (hwf : Wf m) :
    (r * c = m.size_ →
      ∃ m2, m.resize r c = some m2 ∧ m2.rows_ = r ∧ m2.cols_ = c ∧
        m2.data_ = m.data_ ∧ m.data_.length = m.size_ ∧
        ∀ i j, i < r → j < c → m2.el i j = m.data_.getD (i * c + j) 0) ∧
    (r * c ≠ m.size_ → m.resize r c = none) := by
  constructor
  · intro h
    have hres : m.resize r c = some { m with rows_ := r, cols_ := c } := by
      unfold Matrix.resize
      rw [if_pos h]
    exact ⟨_, hres, rfl, rfl, rfl, hwf.2, fun i j _ _ => rfl⟩
  · intro h
    unfold Matrix.resize
    rw [if_neg h]

/-- Witness for C2 at the concrete container `[[1,2,3],[4,5,6]]` reshaped
to 3×2: the read of `(1,0)` sees buffer position `1*2+0 = 2`, value `3`. -/
theorem C2_reshape_witness :
    ∃ m2, Matrix.resize ⟨2, 3, 6, [1, 2, 3, 4, 5, 6]⟩ 3 2 = some m2 ∧
      m2.rows_ = 3 ∧ m2.cols_ = 2 ∧ m2.el 1 0 = 3 := by
  obtain ⟨m2, h1, h2, h3, -, -, h6⟩ :=
    (C2_reshape ⟨2, 3, 6, [1, 2, 3, 4, 5, 6]⟩ 3 2 ⟨rfl, rfl⟩).1 rfl
  refine ⟨m2, h1, h2, h3, ?_⟩
  rw [h6 1 0 (by omega) (by omega)]
  decide

/-- C3: every public operation — the fill constructors, the external-buffer
constructor, the initializer-list constructor, the copy constructor, the
materializing constructor, both assignment operators, `resize`, `t()` and
element mutation — preserves (or establishes) the invariant
`data_.length == rows_ * cols_` (through `size_`), and element access at
`(i,j)` always reads the buffer at linear index `i * cols_ + j`.  (The
external-buffer constructor is never instantiated in the source — its loop
body is ill-formed C++ — and is modeled by its evident per-element
write.) -/
theorem C3_invariant :
    (∀ r c val m, Matrix.mkFill r c val = some m → Wf m) ∧
    (∀ r c m, Matrix.mkZero r c = some m → Wf m) ∧
    (∀ r c f m, Matrix.ofBuffer r c f = some m → Wf m) ∧
    (∀ vals, Wf (Matrix.ofList vals)) ∧
    (∀ other, Wf other → Wf (Matrix.ofCopy other)) ∧
    (∀ op m, materialize op = some m → Wf m) ∧
    (∀ self other, Wf other → Wf (Matrix.assignCopy self other)) ∧
    (∀ m vals m2, Wf m → Matrix.assignList m vals = some m2 → Wf m2) ∧
    (∀ m r c m2, Wf m → Matrix.resize m r c = some m2 → Wf m2) ∧
    (∀ m m2, Matrix.t m = some m2 → Wf m2) ∧
    (∀ m i j val, Wf m → Wf (Matrix.setEl m i j val)) ∧
    (∀ m i j, Matrix.el m i j = m.data_.getD (i * m.cols_ + j) 0) :=
  ⟨wf_mkFill, wf_mkZero, wf_ofBuffer, wf_ofList, wf_ofCopy, wf_materialize,
    wf_assignCopy, wf_assignList, wf_resize, wf_t, wf_setEl,
    fun _ _ _ => rfl⟩

/-- Witness for C3: the invariant-preservation conjuncts applied at
concrete inputs, discharging their `Wf` hypotheses. -/
theorem C3_invariant_witness :
    Wf (Matrix.setEl ⟨1, 3, 3, [1, 2, 3]⟩ 0 2 7) ∧
    Wf (Matrix.assignCopy ⟨1, 3, 3, [1, 2, 3]⟩ ⟨2, 1, 2, [4, 5]⟩) := by
  obtain ⟨-, -, -, -, -, -, hac, -, -, -, hset, -⟩ := C3_invariant
  exact ⟨hset ⟨1, 3, 3, [1, 2, 3]⟩ 0 2 7 ⟨rfl, rfl⟩,
    hac ⟨1, 3, 3, [1, 2, 3]⟩ ⟨2, 1, 2, [4, 5]⟩ ⟨rfl, rfl⟩⟩

/-- C8: constructing a container from dimensions `(r,c)` yields a
zero-filled container of that shape exactly when both extents are strictly
positive and below `MAX_SZ` (the maximum representable `std::size_t`), and
is a contract violation (failed `assert`) otherwise. -/
theorem C8_construct (r c : Nat) :
    ((0 < r ∧ 0 < c ∧ r < MAX_SZ ∧ c < MAX_SZ) →
      ∃ m, Matrix.mkZero r c = some m ∧ m.rows_ = r ∧ m.cols_ = c ∧
        m.size_ = r * c ∧ m.data_ = List.replicate (r * c) 0 ∧
        ∀ i j, i < r → j < c → m.el i j = 0) ∧
    (¬(0 < r ∧ 0 < c ∧ r < MAX_SZ ∧ c < MAX_SZ) → Matrix.mkZero r c = none) := by
  constructor
  · intro h
    have hm : Matrix.mkZero r c = some ⟨r, c, r * c, List.replicate (r * c) 0⟩ := by
      unfold Matrix.mkZero Matrix.mkFill
      rw [if_pos h]
    refine ⟨_, hm, rfl, rfl, rfl, rfl, ?_⟩
    intro i j hi hj
    unfold Matrix.el
    dsimp
    rw [List.getD_eq_getElem?_getD, List.getElem?_replicate_of_lt (idx_lt hi hj)]
    rfl
  · intro h
    unfold Matrix.mkZero Matrix.mkFill
    rw [if_neg h]

/-- Witness for C8 at extents 2×3: construction succeeds and every entry,
in particular `(1,2)`, is zero. -/
theorem C8_construct_witness :
    ∃ m, Matrix.mkZero 2 3 = some m ∧ m.rows_ = 2 ∧ m.cols_ = 3 ∧ m.el 1 2 = 0 := by
  obtain ⟨m, h1, h2, h3, -, -, h6⟩ := (C8_construct 2 3).1 (by decide)
  exact ⟨m, h1, h2, h3, h6 1 2 (by omega) (by omega)⟩

/-- C9: `Vector::resize` is a no-op for every requested dimension pair: it
never fails (the override has no `assert`), and afterwards `rows()` is
still `1`, `cols()` is still the vector's size, and the buffer is
unchanged. -/
theorem C9_vector_reshape (v : Vector) (r c : Nat) :
    Vector.resize v r c = v ∧
    Vector.rows (Vector.resize v r c) = 1 ∧
    Vector.cols (Vector.resize v r c) = v.mat.size_ ∧
    (Vector.resize v r c).mat.data_ = v.mat.data_ :=
  ⟨rfl, rfl, rfl, rfl⟩

/-- C10: the initializer-list constructor accepts a sequence of any length
`n` with no contract check at all and yields a single-row container with
`rows() == 1`, `cols() == n`, `size() == n`, holding the sequence's values
in order; in particular the empty sequence yields a 1×0 container even
though dimensioned construction rejects a zero extent. -/
theorem C10_initializer_list (vals : List ℚ) :
    (Matrix.ofList vals).rows_ = 1 ∧
    (Matrix.ofList vals).cols_ = vals.length ∧
    (Matrix.ofList vals).size_ = vals.length ∧
    (Matrix.ofList vals).data_ = vals ∧
    (Matrix.ofList ([] : List ℚ)).rows_ = 1 ∧
    (Matrix.ofList ([] : List ℚ)).cols_ = 0 ∧
    Matrix.mkZero 1 0 = none :=
  ⟨rfl, rfl, rfl, Matrix.ofList_data vals, rfl, rfl, rfl⟩

/-- C4: for every (well-formed, validly sized) container, `t()` returns a
new container with the extents swapped and `result(i,j) = source(j,i)` for
all valid indices — the source is not mutated, as `t()` is modeled as a
pure function — and transposing the result again yields a container equal
to the original. -/
theorem C4_transpose (m : Matrix) (hwf : Wf m) (h1 : 0 < m.rows_)
    (h2 : 0 < m.cols_) (h3 : m.rows_ < MAX_SZ) (h4 : m.cols_ < MAX_SZ) :
    ∃ mt, Matrix.t m = some mt ∧ mt.rows_ = m.cols_ ∧ mt.cols_ = m.rows_ ∧
      (∀ i j, i < m.cols_ → j < m.rows_ → mt.el i j = m.el j i) ∧
      Matrix.t mt = some m := by
  obtain ⟨mt, ht, htr, htc, hts, htl, htel⟩ := t_spec m h1 h2 h3 h4
  refine ⟨mt, ht, htr, htc, htel, ?_⟩
  obtain ⟨mtt, htt, httr, httc, htts, httl, httel⟩ :=
    t_spec mt (by rw [htr]; exact h2) (by rw [htc]; exact h1)
      (by rw [htr]; exact h4) (by rw [htc]; exact h3)
  rw [htt]
  congr 1
  apply Matrix.eq_of_fields
  · rw [httr, htc]
  · rw [httc, htr]
  · rw [htts, htc, htr]; exact hwf.1.symm
  · apply Matrix.data_eq_of_el (by rw [httr, htc]) (by rw [httc, htr])
    · rw [httl, httr, httc]
    · exact hwf.2.trans hwf.1
    · intro i j hi hj
      have hi2 : i < mt.cols_ := by rw [← httr]; exact hi
      have hj2 : j < mt.rows_ := by rw [← httc]; exact hj
      rw [httel i j hi2 hj2]
      exact htel j i (by rw [← htr]; exact hj2) (by rw [← htc]; exact hi2)

/-- Witness for C4 at `[[1,2],[3,4]]`: the transpose holds `3` at `(0,1)`
and transposing it again gives back the original container. -/
theorem C4_transpose_witness :
    ∃ mt, Matrix.t ⟨2, 2, 4, [1, 2, 3, 4]⟩ = some mt ∧ mt.el 0 1 = 3 ∧
      Matrix.t mt = some ⟨2, 2, 4, [1, 2, 3, 4]⟩ := by
  obtain ⟨mt, ht, -, -, hel, htt⟩ :=
    C4_transpose ⟨2, 2, 4, [1, 2, 3, 4]⟩ ⟨rfl, rfl⟩
      (by decide) (by decide) (by decide) (by decide)
  refine ⟨mt, ht, ?_, htt⟩
  rw [hel 0 1 (by decide) (by decide)]
  decide

/-- C5: for same-shaped containers `A`, `B`, the node `A + B` materializes
to the element-wise sum, and the composed node `(A + B) - B` materializes
to a container equal to `A`. -/
theorem C5_sum_roundtrip (A B : Matrix) (hwa : Wf A) (hwb : Wf B)
    (hr : B.rows_ = A.rows_) (hc : B.cols_ = A.cols_)
    (h1 : 0 < A.rows_) (h2 : 0 < A.cols_)
    (h3 : A.rows_ < MAX_SZ) (h4 : A.cols_ < MAX_SZ) :
    ∃ n, matSum (Matrix.toOp A) (Matrix.toOp B) = some n ∧
      (∃ mS, materialize n = some mS ∧ mS.rows_ = A.rows_ ∧ mS.cols_ = A.cols_ ∧
        ∀ i j, i < A.rows_ → j < A.cols_ → mS.el i j = A.el i j + B.el i j) ∧
      ∃ n2, matSub n (Matrix.toOp B) = some n2 ∧ materialize n2 = some A := by
  have hsz : A.size_ = B.size_ := by rw [hwa.1, hwb.1, hr, hc]
  obtain ⟨n, hn, hnr, hnc, hns, hnel⟩ :=
    matSum_spec (Matrix.toOp A) (Matrix.toOp B) ⟨hsz, hr.symm, hc.symm⟩
  refine ⟨n, hn, ?_, ?_⟩
  · obtain ⟨mS, hmS, hmr, hmc, -, -, hmel⟩ :=
      materialize_spec n (by rw [hnr]; exact h1) (by rw [hnc]; exact h2)
        (by rw [hnr]; exact h3) (by rw [hnc]; exact h4)
    refine ⟨mS, hmS, hmr.trans hnr, hmc.trans hnc, ?_⟩
    intro i j hi hj
    rw [hmel i j (by rw [hnr]; exact hi) (by rw [hnc]; exact hj), hnel i j]
    rfl
  · obtain ⟨n2, hn2, hn2r, hn2c, hn2s, hn2el⟩ :=
      matSub_spec n (Matrix.toOp B) ⟨hns.trans hsz, hnr.trans hr.symm, hnc.trans hc.symm⟩
    refine ⟨n2, hn2, ?_⟩
    apply materialize_eq_of_el n2 A hwa (hn2r.trans hnr) (hn2c.trans hnc) h1 h2 h3 h4
    intro i j _ _
    rw [hn2el i j, hnel i j]
    show A.el i j + B.el i j - B.el i j = A.el i j
    ring

/-- Witness for C5 at `A = [[1,2],[3,4]]`, `B = [[5,6],[7,8]]`: the
round-trip `(A + B) - B` materializes back to `A`. -/
theorem C5_sum_roundtrip_witness :
    ∃ n, matSum (Matrix.toOp ⟨2, 2, 4, [1, 2, 3, 4]⟩)
        (Matrix.toOp ⟨2, 2, 4, [5, 6, 7, 8]⟩) = some n ∧
      ∃ n2, matSub n (Matrix.toOp ⟨2, 2, 4, [5, 6, 7, 8]⟩) = some n2 ∧
        materialize n2 = some ⟨2, 2, 4, [1, 2, 3, 4]⟩ := by
  obtain ⟨n, hn, -, n2, hn2, hm⟩ :=
    C5_sum_roundtrip ⟨2, 2, 4, [1, 2, 3, 4]⟩ ⟨2, 2, 4, [5, 6, 7, 8]⟩
      ⟨rfl, rfl⟩ ⟨rfl, rfl⟩ rfl rfl (by decide) (by decide) (by decide) (by decide)
  exact ⟨n, hn, n2, hn2, hm⟩

/-- C6: for same-shaped containers `A`, `B`, the element-wise-multiply node
built by the dedicated `&` overload (`MatElMul`, never `MatMul`) has `A`'s
shape and materializes with entry `(i,j)` equal to `A(i,j) * B(i,j)`. -/
theorem C6_elementwise_mul (A B : Matrix) (hwa : Wf A) (hwb : Wf B)
    (hr : B.rows_ = A.rows_) (hc : B.cols_ = A.cols_)
    (h1 : 0 < A.rows_) (h2 : 0 < A.cols_)
    (h3 : A.rows_ < MAX_SZ) (h4 : A.cols_ < MAX_SZ) :
    ∃ n, matElMul (Matrix.toOp A) (Matrix.toOp B) = some n ∧
      n.rows = A.rows_ ∧ n.cols = A.cols_ ∧
      ∃ m, materialize n = some m ∧ m.rows_ = A.rows_ ∧ m.cols_ = A.cols_ ∧
        ∀ i j, i < A.rows_ → j < A.cols_ → m.el i j = A.el i j * B.el i j := by
  have hsz : A.size_ = B.size_ := by rw [hwa.1, hwb.1, hr, hc]
  obtain ⟨n, hn, hnr, hnc, hns, hnel⟩ :=
    matElMul_spec (Matrix.toOp A) (Matrix.toOp B) ⟨hsz, hr.symm, hc.symm⟩
  refine ⟨n, hn, hnr, hnc, ?_⟩
  obtain ⟨m, hm, hmr, hmc, -, -, hmel⟩ :=
    materialize_spec n (by rw [hnr]; exact h1) (by rw [hnc]; exact h2)
      (by rw [hnr]; exact h3) (by rw [hnc]; exact h4)
  refine ⟨m, hm, hmr.trans hnr, hmc.trans hnc, ?_⟩
  intro i j hi hj
  rw [hmel i j (by rw [hnr]; exact hi) (by rw [hnc]; exact hj), hnel i j]
  rfl

/-- Witness for C6 at `A = [[1,2],[3,4]]`, `B = [[1,2],[3,4]]`: the
materialized `A & B` holds `16` at `(1,1)` (element-wise square, not the
matrix product, whose `(1,1)` entry would be `22`). -/
theorem C6_elementwise_mul_witness :
    ∃ n, matElMul (Matrix.toOp ⟨2, 2, 4, [1, 2, 3, 4]⟩)
        (Matrix.toOp ⟨2, 2, 4, [1, 2, 3, 4]⟩) = some n ∧
      ∃ m, materialize n = some m ∧ m.el 1 1 = 16 := by
  obtain ⟨n, hn, -, -, m, hm, -, -, hel⟩ :=
    C6_elementwise_mul ⟨2, 2, 4, [1, 2, 3, 4]⟩ ⟨2, 2, 4, [1, 2, 3, 4]⟩
      ⟨rfl, rfl⟩ ⟨rfl, rfl⟩ rfl rfl (by decide) (by decide) (by decide) (by decide)
  refine ⟨n, hn, m, hm, ?_⟩
  rw [hel 1 1 (by decide) (by decide)]
  show (4 : ℚ) * 4 = 16
  norm_num

/-- C7: the scalar-on-left and scalar-on-right overloads of scalar scale
build the same `MatScale` node (so the materialized results are equal), and
likewise for scalar shift (`MatShift`); the materialized entries are
`A(i,j) * s` respectively `A(i,j) + s`. -/
theorem C7_scalar_commute (A : Matrix) (s : ℚ) (h1 : 0 < A.rows_)
    (h2 : 0 < A.cols_) (h3 : A.rows_ < MAX_SZ) (h4 : A.cols_ < MAX_SZ) :
    opScaleLeft s (Matrix.toOp A) = opScaleRight (Matrix.toOp A) s ∧
    opShiftLeft s (Matrix.toOp A) = opShiftRight (Matrix.toOp A) s ∧
    (∃ mSc, materialize (opScaleRight (Matrix.toOp A) s) = some mSc ∧
      mSc.rows_ = A.rows_ ∧ mSc.cols_ = A.cols_ ∧
      ∀ i j, i < A.rows_ → j < A.cols_ → mSc.el i j = A.el i j * s) ∧
    (∃ mSh, materialize (opShiftRight (Matrix.toOp A) s) = some mSh ∧
      mSh.rows_ = A.rows_ ∧ mSh.cols_ = A.cols_ ∧
      ∀ i j, i < A.rows_ → j < A.cols_ → mSh.el i j = A.el i j + s) := by
  refine ⟨rfl, rfl, ?_, ?_⟩
  · obtain ⟨mSc, hm, hmr, hmc, -, -, hmel⟩ :=
      materialize_spec (opScaleRight (Matrix.toOp A) s) h1 h2 h3 h4
    exact ⟨mSc, hm, hmr, hmc, fun i j hi hj => hmel i j hi hj⟩
  · obtain ⟨mSh, hm, hmr, hmc, -, -, hmel⟩ :=
      materialize_spec (opShiftRight (Matrix.toOp A) s) h1 h2 h3 h4
    exact ⟨mSh, hm, hmr, hmc, fun i j hi hj => hmel i j hi hj⟩

/-- Witness for C7 at `A = [[3,4]]`, `s = 5`: both overloads agree and
materializing `A * 5` puts `20` at `(0,1)`. -/
theorem C7_scalar_commute_witness :
    opScaleLeft 5 (Matrix.toOp ⟨1, 2, 2, [3, 4]⟩) =
      opScaleRight (Matrix.toOp ⟨1, 2, 2, [3, 4]⟩) 5 ∧
    ∃ mSc, materialize (opScaleRight (Matrix.toOp ⟨1, 2, 2, [3, 4]⟩) 5) = some mSc ∧
      mSc.el 0 1 = 20 := by
  obtain ⟨hcomm, -, ⟨mSc, hm, -, -, hel⟩, -⟩ :=
    C7_scalar_commute ⟨1, 2, 2, [3, 4]⟩ 5 (by decide) (by decide) (by decide) (by decide)
  refine ⟨hcomm, mSc, hm, ?_⟩
  rw [hel 0 1 (by decide) (by decide)]
  show (4 : ℚ) * 5 = 20
  norm_num

/-- C1: evaluation of the claim's failing input.  For `A = [[1/2]]` (a 1×1
container, e.g. `Matrix<double> A(1,1,0.5)`) and `B = [[1]]`, the claim says
the materialized entry `(0,0)` of `A * B` is the dot product
`A(0,0) * B(0,0) = 1/2`; the code yields `0`, because the accumulator of
`MatMul::operator()` is `auto sum = 0` — an `int` — so every partial sum is
truncated toward zero (`sum += 0.5` leaves `sum == 0`).  The sibling header
version in the repository declares the accumulator `T sum = T(0)`, and the
spec's testable property requires the true dot product, so the `int`
accumulator is a slip in the code. -/
theorem C1_matmul_int_accumulator_bug :
    ∃ n, matMul (Matrix.toOp ⟨1, 1, 1, [1/2]⟩) ⟨1, 1, 1, [1]⟩ = some n ∧
      ∃ m, materialize n = some m ∧ m.el 0 0 = 0 ∧
        Matrix.el ⟨1, 1, 1, [1/2]⟩ 0 0 * Matrix.el ⟨1, 1, 1, [1]⟩ 0 0 = 1/2 ∧
        (0 : ℚ) ≠ 1/2 := by
  refine ⟨_, rfl, _, rfl, ?_, ?_, by norm_num⟩
  · show ((ratTrunc (((0 : Int) : ℚ) + (1/2 : ℚ) * (1 : ℚ)) : Int) : ℚ) = 0
    rw [show ((0 : Int) : ℚ) + (1/2 : ℚ) * (1 : ℚ) = 1/2 by norm_num]
    rw [show ratTrunc (1/2 : ℚ) = 0 by
      unfold ratTrunc
      rw [show ((1/2 : ℚ)).num = 1 by norm_num, show ((1/2 : ℚ)).den = 2 by norm_num]
      decide]
    norm_num
  · show (1/2 : ℚ) * 1 = 1/2
    norm_num

end Linalg
